import Mathlib

/-!
Verification of the emla EML-metadata extraction tool.

This file shallowly embeds the core pipeline of the concurrent variant of
main.go: the Go string helpers the pipeline relies on, the link extractor
with its regex fallback, the record builder, canonical filename
derivation, the address handling, the side-effect dispatcher and the
worker-pool orchestrator.  External libraries (go-message, x/net/html,
net/url, path/filepath) are either passed in as explicit outcome
parameters or modelled, as noted at each definition.
-/

namespace Emla

/-- Membership test on a list, as the Go code tests set membership. -/
def memB {α : Type} [DecidableEq α] (x : α) : List α → Bool
  | [] => false
  | y :: ys => if x = y then true else memB x ys

theorem memB_iff {α : Type} [DecidableEq α] (x : α) (l : List α) :
    memB x l = true ↔ x ∈ l := by
  induction l with
  | nil => simp [memB]
  | cons y ys ih =>
    by_cases h : x = y <;> simp [memB, h, ih]

/-- Character-wise replacement; models Go strings.ReplaceAll(s, old, new)
for a single-character old and new (the only shapes main.go uses), where
substring replacement coincides with character mapping. -/
def listReplace (old new : Char) : List Char → List Char
  | [] => []
  | c :: cs => (if c = old then new else c) :: listReplace old new cs

/-- Models strings.ReplaceAll(s, old, "") for a single-character old,
i.e. removal of every occurrence of that character. -/
def listRemove (old : Char) : List Char → List Char
  | [] => []
  | c :: cs => if c = old then listRemove old cs else c :: listRemove old cs

/-- Models strings.Split(s, sep) for a single-character separator: split
at every occurrence of the separator, keeping empty fields, and yield one
field even for the empty input. -/
def goSplitChar (sep : Char) : List Char → List (List Char)
  | [] => [[]]
  | c :: cs =>
    if c = sep then [] :: goSplitChar sep cs
    else
      match goSplitChar sep cs with
      | [] => [[c]]
      | p :: ps => (c :: p) :: ps

/-- Helper for the Go trim functions: remove the maximal run of
characters satisfying p from both ends of the list. -/
def listTrimBy (p : Char → Bool) (l : List Char) : List Char :=
  ((l.dropWhile p).reverse.dropWhile p).reverse

/-- Models strings.Trim(s, cutset) at the character-list level. -/
def listTrim (cutset : List Char) (l : List Char) : List Char :=
  listTrimBy (fun c => memB c cutset) l

/-- The ASCII characters accepted by unicode.IsSpace; the headers and
bodies handled here are ASCII-space separated, so this fragment of the
Unicode predicate is what strings.TrimSpace exercises. -/
def goSpaceChars : List Char := ['\t', '\n', '\x0B', '\x0C', '\r', ' ']

/-- Models strings.Trim(s, cutset) on strings. -/
def goTrim (s : String) (cutset : List Char) : String :=
  (listTrim cutset s.toList).asString

/-- Models strings.TrimSpace. -/
def goTrimSpaceS (s : String) : String :=
  (listTrimBy (fun c => memB c goSpaceChars) s.toList).asString

/-- Models strings.ReplaceAll for single characters on strings. -/
def goReplaceChar (old new : Char) (s : String) : String :=
  (listReplace old new s.toList).asString

/-- Models strings.HasPrefix. -/
def goHasPrefix (s pre : String) : Bool :=
  pre.toList.isPrefixOf s.toList

theorem toList_asString (l : List Char) : (List.asString l).toList = l := rfl

/-- The characters sanitizeFilename (main.go:664-670) replaces with an
underscore. -/
def invalidChars : List Char := ['/', '\\', ':', '*', '?', '"', '<', '>', '|']

/-- Models sanitizeFilename (main.go:664-670): sequentially replace each
invalid character with an underscore. -/
def sanitizeFilename (name : String) : String :=
  (invalidChars.foldl (fun acc c => listReplace c '_' acc) name.toList).asString

/-- Models formatTime (main.go:651-662): the empty date becomes
"unknown"; a date with at least two space-separated parts becomes
"date_timeWithoutColons"; anything else is returned unchanged. -/
def formatTime (sentDate : String) : String :=
  if sentDate = "" then "unknown"
  else
    let parts := goSplitChar ' ' sentDate.toList
    if 2 ≤ parts.length then
      (parts.headD []).asString ++ "_" ++ (listRemove ':' (parts.getD 1 [])).asString
    else sentDate

/-- The record one successfully processed file yields (main.go:348-360);
list-valued fields are stored newline-joined, exactly as in the source. -/
structure EmailRecord where
  URLDomains : String
  Folder : String
  Subject : String
  FromName : String
  FromEmail : String
  ToName : String
  ToEmail : String
  SentDate : String
  IP : String
  URLs : String
  OriginalFile : String
deriving DecidableEq

/-- The canonical file name derived by renameFile and renameFileTo
(main.go:612-618, 625-626): the formatted timestamp, a space, the
subject, the ".eml" extension, all sanitized. -/
def deriveNewName (record : EmailRecord) : String :=
  sanitizeFilename (formatTime record.SentDate ++ " " ++ record.Subject ++ ".eml")

/-! Helper lemmas about replacement and sanitization. -/

theorem mem_listReplace {c old new : Char} {l : List Char}
    (h : c ∈ listReplace old new l) : c = new ∨ c ∈ l ∧ c ≠ old := by
  induction l with
  | nil => simp [listReplace] at h
  | cons d ds ih =>
    simp only [listReplace, List.mem_cons] at h
    rcases h with h | h
    · by_cases hd : d = old
      · simp [hd] at h; exact Or.inl h
      · simp [hd] at h; subst h; exact Or.inr ⟨List.mem_cons_self _ _, hd⟩
    · rcases ih h with h' | ⟨h1, h2⟩
      · exact Or.inl h'
      · exact Or.inr ⟨List.mem_cons_of_mem _ h1, h2⟩

theorem listReplace_of_not_mem {old new : Char} {l : List Char}
    (h : old ∉ l) : listReplace old new l = l := by
  induction l with
  | nil => rfl
  | cons d ds ih =>
    simp only [List.mem_cons, not_or] at h
    simp [listReplace, Ne.symm h.1, ih h.2]

theorem not_mem_foldl_replace (L : List Char) (l : List Char) (c : Char)
    (hc : c ∉ l) (hu : c ≠ '_') :
    c ∉ L.foldl (fun acc d => listReplace d '_' acc) l := by
  induction L generalizing l with
  | nil => simpa using hc
  | cons d ds ih =>
    simp only [List.foldl_cons]
    apply ih
    intro hmem
    rcases mem_listReplace hmem with h | ⟨h1, _⟩
    · exact hu h
    · exact hc h1

theorem mem_foldl_replace_elim (L : List Char) (l : List Char) (c : Char)
    (hcL : c ∈ L) (hu : '_' ∉ L) :
    c ∉ L.foldl (fun acc d => listReplace d '_' acc) l := by
  induction L generalizing l with
  | nil => simp at hcL
  | cons d ds ih =>
    simp only [List.mem_cons, not_or] at hu
    simp only [List.foldl_cons]
    rcases List.mem_cons.mp hcL with h | h
    · subst h
      apply not_mem_foldl_replace
      · intro hmem
        rcases mem_listReplace hmem with h' | ⟨_, h2⟩
        · exact hu.1 h'.symm
        · exact h2 rfl
      · intro h'; exact hu.1 h'.symm
    · exact ih _ h hu.2

theorem foldl_replace_id (L : List Char) (l : List Char)
    (h : ∀ d ∈ L, d ∉ l) :
    L.foldl (fun acc d => listReplace d '_' acc) l = l := by
  induction L with
  | nil => rfl
  | cons d ds ih =>
    simp only [List.foldl_cons]
    rw [listReplace_of_not_mem (h d (List.mem_cons_self _ _))]
    exact ih fun e he => h e (List.mem_cons_of_mem _ he)

theorem sanitize_no_invalid (s : String) (c : Char) (hc : c ∈ invalidChars) :
    c ∉ (sanitizeFilename s).toList := by
  rw [sanitizeFilename, toList_asString]
  exact mem_foldl_replace_elim _ _ _ hc (by decide)

theorem sanitize_idem (s : String) :
    sanitizeFilename (sanitizeFilename s) = sanitizeFilename s := by
  conv_lhs => rw [sanitizeFilename]
  rw [foldl_replace_id]
  · exact congrArg List.asString (toList_asString _).symm ▸ rfl
  · intro d hd
    exact sanitize_no_invalid s d hd

/-- C4: canonical filename derivation is a pure function of the record
(same sentDate and subject give the same name), the sanitization step is
idempotent, and the derived name contains none of the reserved
characters / \ : * ? " < > |. -/
theorem claim4_filename_derivation :
    (∀ r₁ r₂ : EmailRecord, r₁.SentDate = r₂.SentDate → r₁.Subject = r₂.Subject →
      deriveNewName r₁ = deriveNewName r₂)
    ∧ (∀ s : String, sanitizeFilename (sanitizeFilename s) = sanitizeFilename s)
    ∧ (∀ r : EmailRecord, ∀ c ∈ invalidChars, c ∉ (deriveNewName r).toList) := by
  refine ⟨?_, sanitize_idem, ?_⟩
  · intro r₁ r₂ h1 h2
    rw [deriveNewName, deriveNewName, h1, h2]
  · intro r c hc
    exact sanitize_no_invalid _ c hc

/-- Witness for C4 at concrete records: two records agreeing on sentDate
and subject derive the same name, and the derived name has no slash. -/
theorem claim4_filename_derivation_witness :
    deriveNewName ⟨"", "", "Re: Q1", "", "", "", "", "2024-03-26 15:30:15", "", "", "a.eml"⟩
      = deriveNewName ⟨"x", "inbox", "Re: Q1", "n", "e", "n2", "e2", "2024-03-26 15:30:15", "ip", "u", "b.eml"⟩
    ∧ '/' ∉ (deriveNewName ⟨"", "", "Re: Q1", "", "", "", "", "2024-03-26 15:30:15", "", "", "a.eml"⟩).toList :=
  ⟨claim4_filename_derivation.1 _ _ rfl rfl,
   claim4_filename_derivation.2.2 _ '/' (by decide)⟩

/-! Claim C10: formatTime on a nonempty date without a space. -/

theorem goSplitChar_of_not_mem {sep : Char} {l : List Char} (h : sep ∉ l) :
    goSplitChar sep l = [l] := by
  induction l with
  | nil => rfl
  | cons c cs ih =>
    simp only [List.mem_cons, not_or] at h
    rw [goSplitChar]
    simp only [Ne.symm h.1, if_false]
    rw [ih h.2]

/-- C10: a nonempty sentDate that contains no space character is
returned by formatTime unchanged. -/
theorem claim10_formatTime_no_space (s : String) (h1 : s ≠ "")
    (h2 : ∀ c ∈ s.toList, c ≠ ' ') : formatTime s = s := by
  rw [formatTime, if_neg h1]
  have hsp : goSplitChar ' ' s.data = [s.data] :=
    goSplitChar_of_not_mem (fun hmem => h2 ' ' hmem rfl)
  simp [hsp]

/-- Witness for C10 at a concrete space-free date string. -/
theorem claim10_formatTime_no_space_witness :
    formatTime "2024-03-26T15:30:15" = "2024-03-26T15:30:15" :=
  claim10_formatTime_no_space _ (by decide) (by decide)

/-! The HTML document model consumed by the crawler of extractUrls
(main.go:686-719).  Parsing itself is done by the external library
golang.org/x/net/html; the crawler receives its node tree, which the
following types mirror (node type, data, attributes, children). -/

inductive NodeType where
  | text
  | document
  | element
  | comment
  | doctype
deriving DecidableEq

structure Attribute where
  key : String
  val : String

mutual
inductive HNode where
  | mk : NodeType → String → List Attribute → HForest → HNode
inductive HForest where
  | nil : HForest
  | cons : HNode → HForest → HForest
end

/-- The per-node step of the crawler (main.go:697-703): for an anchor
element, collect every href attribute value that begins with "http", in
attribute order; other nodes contribute nothing. -/
def nodeHrefs (t : NodeType) (d : String) (attrs : List Attribute) : List String :=
  if t = NodeType.element ∧ d = "a" then
    attrs.filterMap fun a =>
      if a.key = "href" ∧ goHasPrefix a.val "http" = true then some a.val else none
  else []

mutual
/-- The depth-first, document-order traversal of the crawler
(main.go:695-708): a node contributes its own hrefs, then its children
left to right. -/
def collectHrefs : HNode → List String
  | .mk t d attrs cs => nodeHrefs t d attrs ++ collectHrefsForest cs
def collectHrefsForest : HForest → List String
  | .nil => []
  | .cons n ns => collectHrefs n ++ collectHrefsForest ns
end

/-- The collection condition of the crawler, as a predicate on one node:
it is an anchor element and one of its attributes is href with the given
value, which begins with "http". -/
def IsCollectedHref (t : NodeType) (d : String) (attrs : List Attribute)
    (x : String) : Prop :=
  t = NodeType.element ∧ d = "a"
    ∧ (∃ a ∈ attrs, a.key = "href" ∧ a.val = x) ∧ goHasPrefix x "http" = true

mutual
/-- Some node of the tree (itself or a descendant) is an anchor whose
href attribute carries the given value beginning with "http". -/
def HasAnchorHref : HNode → String → Prop
  | .mk t d attrs cs, x => IsCollectedHref t d attrs x ∨ ForestHasAnchorHref cs x
def ForestHasAnchorHref : HForest → String → Prop
  | .nil, _ => False
  | .cons n ns, x => HasAnchorHref n x ∨ ForestHasAnchorHref ns x
end

/-- The map-based deduplication loop at the end of extractUrls
(main.go:710-718); seen models the contents of the unique set. -/
def dedupLoop : List String → List String → List String
  | [], _ => []
  | u :: rest, seen =>
    if memB u seen then dedupLoop rest seen
    else u :: dedupLoop rest (u :: seen)

/-- The deduplication of extractUrls, started with an empty seen set. -/
def goDedup (l : List String) : List String := dedupLoop l []

/-- Specification-side restatement of the dedup contract in the spec
(keep the first occurrence of each value, drop later duplicates), used
to compare the implementation against the words of the spec. -/
def firstOcc : List String → List String
  | [] => []
  | x :: xs => x :: firstOcc (xs.filter (fun y => y != x))
termination_by l => l.length
decreasing_by
  simp only [List.length_cons]
  exact Nat.lt_succ_of_le (List.length_filter_le _ _)

/-- Character class of the fallback pattern urlRegex (main.go:317): the
pattern accepts any character that is not RE2 whitespace, not a double
quote and not a single quote, where RE2 whitespace is tab, newline,
form feed, carriage return and space. -/
def re2SpaceChars : List Char := ['\t', '\n', '\x0C', '\r', ' ']

def urlChar (c : Char) : Bool :=
  !(memB c re2SpaceChars) && !(c == '"') && !(c == '\'')

/-- One attempted match of the fallback pattern at the head of the text,
for a fixed scheme prefix: the prefix must be present, followed by a
nonempty maximal run of urlChar characters; returns the match and the
remaining text after it. -/
def tryMatchWith (pre : List Char) (cs : List Char) :
    Option (List Char × List Char) :=
  if pre.isPrefixOf cs then
    let run := (cs.drop pre.length).takeWhile urlChar
    if run = [] then none
    else some (pre ++ run, (cs.drop pre.length).dropWhile urlChar)
  else none

/-- A match of https?:// at the head of the text: the optional s is
greedy, and the two prefixes cannot both match at one position. -/
def matchUrlAt (cs : List Char) : Option (List Char × List Char) :=
  match tryMatchWith "https://".toList cs with
  | some r => some r
  | none => tryMatchWith "http://".toList cs

/-- The scan of FindAllString: successive leftmost non-overlapping
matches.  The fuel argument only bounds the recursion and is set to the
text length, which suffices because every step consumes at least one
character. -/
def findAllAuxF : Nat → List Char → List String
  | 0, _ => []
  | _ + 1, [] => []
  | fuel + 1, c :: rest =>
    match matchUrlAt (c :: rest) with
    | some (m, rest') => m.asString :: findAllAuxF fuel rest'
    | none => findAllAuxF fuel rest

/-- Models urlRegex.FindAllString(htmlContent, -1) (main.go:317, 693):
all matches of https?:// followed by a maximal nonempty run of
non-whitespace, non-quote characters, in textual order. -/
def findAllUrls (s : String) : List String :=
  findAllAuxF s.toList.length s.toList

/-- The only part of a parsed URL the pipeline reads (net/url is an
external library): its host component. -/
structure GoURL where
  host : String

/-- Remainder of the text after the first occurrence of "://", if any. -/
def afterSchemeSep : List Char → Option (List Char)
  | [] => none
  | c :: rest =>
    if c = ':' ∧ rest.take 2 = ['/', '/'] then some (rest.drop 2)
    else afterSchemeSep rest

def hostStop (c : Char) : Bool := c == '/' || c == '?' || c == '#'

/-- Concrete model of the external net/url.Parse host extraction, for
URLs of the simple scheme://host[/...] shape this development evaluates;
strings without "://" parse with an empty host.  Claims about parse
failure quantify over an arbitrary parser instead of this model. -/
def goURLParse (s : String) : Option GoURL :=
  match afterSchemeSep s.toList with
  | some rest => some ⟨(rest.takeWhile (fun c => !(hostStop c))).asString⟩
  | none => some ⟨""⟩

/-- The domain-collection loop of processEmlFile (main.go:585-590): for
each URL in order, append the host when the URL parses, skip it
silently otherwise. -/
def urlDomainsOf (parse : String → Option GoURL) : List String → List String
  | [] => []
  | u :: rest =>
    match parse u with
    | some parsed => parsed.host :: urlDomainsOf parse rest
    | none => urlDomainsOf parse rest

/-- Models extractUrls (main.go:686-719) with the outcome of the
external html.Parse passed in explicitly: blank input yields no URLs, a
failed parse takes the regex fallback without deduplication, and a
parsed document is crawled and deduplicated. -/
def extractUrls (parseOutcome : Option HNode) (htmlContent : String) :
    List String :=
  if goTrimSpaceS htmlContent = "" then []
  else
    match parseOutcome with
    | none => findAllUrls htmlContent
    | some doc => goDedup (collectHrefs doc)

/-- The HTML body of the end-to-end example in the spec (§8). -/
def exampleBody : String :=
  "<a href=\"http://a.com/x\">x</a><a href=\"http://a.com/x\">dup</a><a href=\"mailto:y@z.com\">skip</a>"

/-- The node tree the external HTML5 parser produces for exampleBody:
a document node wrapping html, whose children are an empty head and a
body containing the three anchors with their text children. -/
def exampleDoc : HNode :=
  .mk .document "" [] (.cons
    (.mk .element "html" [] (.cons
      (.mk .element "head" [] .nil)
      (.cons
        (.mk .element "body" [] (.cons
          (.mk .element "a" [⟨"href", "http://a.com/x"⟩]
            (.cons (.mk .text "x" [] .nil) .nil))
          (.cons
            (.mk .element "a" [⟨"href", "http://a.com/x"⟩]
              (.cons (.mk .text "dup" [] .nil) .nil))
            (.cons
              (.mk .element "a" [⟨"href", "mailto:y@z.com"⟩]
                (.cons (.mk .text "skip" [] .nil) .nil))
              .nil))))
        .nil)))
    .nil)

/-! Deduplication lemmas: the map-based loop keeps first occurrences. -/

theorem dedupLoop_sublist : ∀ (l seen : List String),
    List.Sublist (dedupLoop l seen) l
  | [], _ => List.Sublist.refl _
  | u :: rest, seen => by
    rw [dedupLoop]
    split
    · exact List.Sublist.cons u (dedupLoop_sublist rest seen)
    · exact List.Sublist.cons₂ u (dedupLoop_sublist rest (u :: seen))

theorem filter_seen_cons (u : String) (seen : List String) (l : List String) :
    l.filter (fun y => !(memB y (u :: seen))) =
      (l.filter (fun y => !(memB y seen))).filter (fun y => y != u) := by
  rw [List.filter_filter]
  apply List.filter_congr
  intro y _
  by_cases h : y = u
  · subst h; simp [memB]
  · simp [memB, h]

theorem dedupLoop_eq_firstOcc : ∀ (l seen : List String),
    dedupLoop l seen = firstOcc (l.filter (fun y => !(memB y seen)))
  | [], _ => by simp [dedupLoop, firstOcc]
  | u :: rest, seen => by
    rw [dedupLoop]
    by_cases h : memB u seen
    · rw [if_pos h, dedupLoop_eq_firstOcc rest seen]
      simp [List.filter_cons, h]
    · rw [if_neg h, dedupLoop_eq_firstOcc rest (u :: seen)]
      have hcons : (u :: rest).filter (fun y => !(memB y seen)) =
          u :: rest.filter (fun y => !(memB y seen)) := by
        simp [List.filter_cons, h]
      rw [hcons]
      simp only [firstOcc]
      rw [filter_seen_cons]

theorem goDedup_eq_firstOcc (l : List String) : goDedup l = firstOcc l := by
  rw [goDedup, dedupLoop_eq_firstOcc]
  congr 1
  simp [memB]

theorem mem_firstOcc : ∀ (l : List String) (x : String),
    x ∈ firstOcc l ↔ x ∈ l := by
  intro l
  induction l using firstOcc.induct with
  | case1 => simp [firstOcc]
  | case2 y ys ih =>
    intro x
    simp only [firstOcc, List.mem_cons]
    by_cases hx : x = y
    · simp [hx]
    · simp only [hx, false_or]
      rw [ih x]
      simp [List.mem_filter, hx]

theorem nodup_firstOcc : ∀ (l : List String), (firstOcc l).Nodup := by
  intro l
  induction l using firstOcc.induct with
  | case1 => simp [firstOcc]
  | case2 y ys ih =>
    simp only [firstOcc, List.nodup_cons]
    refine ⟨?_, ih⟩
    intro hmem
    rw [mem_firstOcc] at hmem
    simp [List.mem_filter] at hmem

theorem firstOcc_sublist : ∀ (l : List String),
    List.Sublist (firstOcc l) l := by
  intro l
  induction l using firstOcc.induct with
  | case1 => simp [firstOcc]
  | case2 y ys ih =>
    simp only [firstOcc]
    exact List.Sublist.cons₂ y (ih.trans (List.filter_sublist ys))

/-! The crawler collects exactly the anchor href values. -/

theorem mem_nodeHrefs {t : NodeType} {d : String} {attrs : List Attribute}
    {x : String} :
    x ∈ nodeHrefs t d attrs ↔ IsCollectedHref t d attrs x := by
  rw [nodeHrefs, IsCollectedHref]
  split
  case isTrue h =>
    simp only [List.mem_filterMap]
    constructor
    · rintro ⟨a, ha, hf⟩
      split at hf
      case isTrue hcond =>
        rw [Option.some.injEq] at hf
        subst hf
        exact ⟨h.1, h.2, ⟨a, ha, hcond.1, rfl⟩, hcond.2⟩
      case isFalse => cases hf
    · rintro ⟨_, _, ⟨a, ha, hk, hv⟩, hp⟩
      refine ⟨a, ha, ?_⟩
      rw [if_pos ⟨hk, hv ▸ hp⟩, hv]
  case isFalse h =>
    simp only [List.not_mem_nil, false_iff]
    rintro ⟨h1, h2, _, _⟩
    exact h ⟨h1, h2⟩

mutual
theorem mem_collectHrefs : ∀ (n : HNode) (x : String),
    x ∈ collectHrefs n ↔ HasAnchorHref n x
  | .mk t d attrs cs, x => by
    simp only [collectHrefs, HasAnchorHref, List.mem_append]
    exact or_congr mem_nodeHrefs (mem_collectHrefsForest cs x)
theorem mem_collectHrefsForest : ∀ (f : HForest) (x : String),
    x ∈ collectHrefsForest f ↔ ForestHasAnchorHref f x
  | .nil, x => by
    simp [collectHrefsForest, ForestHasAnchorHref]
  | .cons n ns, x => by
    simp only [collectHrefsForest, ForestHasAnchorHref, List.mem_append]
    exact or_congr (mem_collectHrefs n x) (mem_collectHrefsForest ns x)
end

/-- C1: for the domain-collection loop of processEmlFile run with any
URL parser, the domain list is at most as long as the URL list; it is
exactly the hosts of the parsable URLs, positionally in their original
relative order; and the two lists have equal length precisely when every
URL parses, a failing URL being dropped from the domain list only (the
URL list itself is left untouched by the loop). -/
theorem claim1_domain_list (parse : String → Option GoURL) (urls : List String) :
    (urlDomainsOf parse urls).length ≤ urls.length
    ∧ urlDomainsOf parse urls =
        (urls.filter (fun u => (parse u).isSome)).map
          (fun u => ((parse u).map GoURL.host).getD "")
    ∧ ((urlDomainsOf parse urls).length = urls.length ↔
        ∀ u ∈ urls, (parse u).isSome) := by
  refine ⟨?_, ?_, ?_⟩
  · induction urls with
    | nil => simp [urlDomainsOf]
    | cons u rest ih =>
      cases hp : parse u with
      | some g => simpa [urlDomainsOf, hp] using ih
      | none =>
        simp only [urlDomainsOf, hp, List.length_cons]
        exact ih.trans (Nat.le_succ _)
  · induction urls with
    | nil => rfl
    | cons u rest ih =>
      cases hp : parse u with
      | some g => simp [urlDomainsOf, hp, List.filter_cons, ih]
      | none => simp [urlDomainsOf, hp, List.filter_cons, ih]
  · induction urls with
    | nil => simp [urlDomainsOf]
    | cons u rest ih =>
      cases hp : parse u with
      | some g =>
        simp only [urlDomainsOf, hp, List.length_cons, Nat.succ_inj]
        rw [ih]
        simp [hp]
      | none =>
        simp only [urlDomainsOf, hp, List.length_cons]
        constructor
        · intro h
          exfalso
          have hle : (urlDomainsOf parse rest).length ≤ rest.length := by
            clear h ih
            induction rest with
            | nil => simp [urlDomainsOf]
            | cons v vs ihv =>
              cases hv : parse v with
              | some g => simpa [urlDomainsOf, hv] using ihv
              | none =>
                simp only [urlDomainsOf, hv, List.length_cons]
                exact ihv.trans (Nat.le_succ _)
          omega
        · intro h
          have hu := h u (List.mem_cons_self _ _)
          simp [hp] at hu

/-- Witness for C1 at the concrete model parser and a concrete list. -/
theorem claim1_domain_list_witness :
    (urlDomainsOf goURLParse ["http://a.com/x", "http://b.org/y"]).length ≤ 2 :=
  (claim1_domain_list goURLParse ["http://a.com/x", "http://b.org/y"]).1

/-- C2: on the primary DOM path, extractUrls equals the
specification-side first-occurrence dedup of the crawled href list, so
it has no duplicates, is a sublist of that list (preserving relative
order), and contains exactly the href values of anchor elements that
begin with "http"; on the §8 example tree it returns exactly
["http://a.com/x"] with domain list ["a.com"]. -/
theorem claim2_primary_extraction (doc : HNode) (content : String)
    (hne : goTrimSpaceS content ≠ "") :
    extractUrls (some doc) content = firstOcc (collectHrefs doc)
    ∧ (extractUrls (some doc) content).Nodup
    ∧ List.Sublist (extractUrls (some doc) content) (collectHrefs doc)
    ∧ (∀ x, x ∈ extractUrls (some doc) content ↔ HasAnchorHref doc x)
    ∧ extractUrls (some exampleDoc) exampleBody = ["http://a.com/x"]
    ∧ urlDomainsOf goURLParse (extractUrls (some exampleDoc) exampleBody) =
        ["a.com"] := by
  have he : extractUrls (some doc) content = goDedup (collectHrefs doc) := by
    rw [extractUrls, if_neg hne]
  rw [he, goDedup_eq_firstOcc]
  refine ⟨rfl, nodup_firstOcc _, firstOcc_sublist _, ?_, by decide, by decide⟩
  intro x
  rw [mem_firstOcc]
  exact mem_collectHrefs doc x

/-- Witness for C2 at the §8 example document and body. -/
theorem claim2_primary_extraction_witness :
    extractUrls (some exampleDoc) exampleBody = ["http://a.com/x"] :=
  (claim2_primary_extraction exampleDoc exampleBody (by decide)).2.2.2.2.1

/-! Lemmas about the regex-fallback scanner. -/

theorem mem_takeWhile_true {α : Type} {p : α → Bool} :
    ∀ (l : List α) (a : α), a ∈ l.takeWhile p → p a = true := by
  intro l
  induction l with
  | nil => intro a h; simp at h
  | cons c cs ih =>
    intro a h
    rw [List.takeWhile_cons] at h
    split at h
    · rcases List.mem_cons.mp h with rfl | h'
      · assumption
      · exact ih a h'
    · simp at h

theorem head_dropWhile_false {α : Type} {p : α → Bool} :
    ∀ (l : List α) (c : α), (l.dropWhile p).head? = some c → p c = false := by
  intro l
  induction l with
  | nil => intro c h; simp [List.dropWhile] at h
  | cons a as ih =>
    intro c h
    rw [List.dropWhile_cons] at h
    split at h
    · exact ih c h
    · rw [List.head?_cons, Option.some.injEq] at h
      rename_i hp
      rw [← h]
      cases hpa : p a with
      | true => exact absurd hpa hp
      | false => rfl

theorem tryMatchWith_some {pre cs : List Char} {m rest : List Char}
    (h : tryMatchWith pre cs = some (m, rest)) :
    (cs.drop pre.length).takeWhile urlChar ≠ []
    ∧ (∀ c ∈ (cs.drop pre.length).takeWhile urlChar, urlChar c = true)
    ∧ m = pre ++ (cs.drop pre.length).takeWhile urlChar
    ∧ rest = (cs.drop pre.length).dropWhile urlChar := by
  rw [tryMatchWith] at h
  split at h
  case isTrue hp =>
    dsimp only at h
    split at h
    case isTrue => cases h
    case isFalse hrun =>
      rw [Option.some.injEq, Prod.mk.injEq] at h
      exact ⟨hrun, fun c hc => mem_takeWhile_true _ c hc, h.1.symm, h.2.symm⟩
  case isFalse => cases h

theorem matchUrlAt_shape {cs m rest : List Char}
    (h : matchUrlAt cs = some (m, rest)) :
    ∃ pre run, (pre = "https://".toList ∨ pre = "http://".toList) ∧ run ≠ []
      ∧ (∀ c ∈ run, urlChar c = true) ∧ m = pre ++ run := by
  rw [matchUrlAt] at h
  cases h1 : tryMatchWith "https://".toList cs with
  | some r =>
    rw [h1] at h
    rw [Option.some.injEq] at h
    subst h
    obtain ⟨hr, hc, hm, _⟩ := tryMatchWith_some h1
    exact ⟨_, _, Or.inl rfl, hr, hc, hm⟩
  | none =>
    rw [h1] at h
    obtain ⟨hr, hc, hm, _⟩ := tryMatchWith_some h
    exact ⟨_, _, Or.inr rfl, hr, hc, hm⟩

theorem matchUrlAt_rest {cs m rest : List Char}
    (h : matchUrlAt cs = some (m, rest)) :
    ∀ c, rest.head? = some c → urlChar c = false := by
  intro c hc
  rw [matchUrlAt] at h
  cases h1 : tryMatchWith "https://".toList cs with
  | some r =>
    rw [h1] at h
    rw [Option.some.injEq] at h
    subst h
    obtain ⟨_, _, _, hrest⟩ := tryMatchWith_some h1
    exact head_dropWhile_false _ c (hrest ▸ hc)
  | none =>
    rw [h1] at h
    obtain ⟨_, _, _, hrest⟩ := tryMatchWith_some h
    exact head_dropWhile_false _ c (hrest ▸ hc)

theorem findAllAuxF_shape : ∀ (fuel : Nat) (cs : List Char) (m : String),
    m ∈ findAllAuxF fuel cs →
    ∃ pre run, (pre = "https://".toList ∨ pre = "http://".toList) ∧ run ≠ []
      ∧ (∀ c ∈ run, urlChar c = true) ∧ m = (pre ++ run).asString := by
  intro fuel
  induction fuel with
  | zero => intro cs m h; simp [findAllAuxF] at h
  | succ f ih =>
    intro cs m h
    cases cs with
    | nil => simp [findAllAuxF] at h
    | cons c rest =>
      rw [findAllAuxF] at h
      cases hm : matchUrlAt (c :: rest) with
      | some pr =>
        obtain ⟨mm, rr⟩ := pr
        simp only [hm] at h
        rcases List.mem_cons.mp h with rfl | h'
        · obtain ⟨pre, run, hp, hr, hc, hmeq⟩ := matchUrlAt_shape hm
          exact ⟨pre, run, hp, hr, hc, by rw [hmeq]⟩
        · exact ih rr m h'
      | none =>
        simp only [hm] at h
        exact ih rest m h

/-- C6: when structural HTML parsing fails outright, extractUrls
returns exactly the regex scan of the raw text: all matches of
http(s):// followed by a maximal nonempty run of non-whitespace,
non-quote characters, in textual order; the run is maximal because the
character following each match never extends it; and the fallback does
not deduplicate, as the doubled concrete input shows. -/
theorem claim6_fallback (content : String) (hne : goTrimSpaceS content ≠ "") :
    extractUrls none content = findAllUrls content
    ∧ (∀ m ∈ findAllUrls content, ∃ pre run,
        (pre = "https://".toList ∨ pre = "http://".toList) ∧ run ≠ []
        ∧ (∀ c ∈ run, urlChar c = true) ∧ m = (pre ++ run).asString)
    ∧ (∀ cs m rest, matchUrlAt cs = some (m, rest) →
        ∀ c, rest.head? = some c → urlChar c = false)
    ∧ findAllUrls "http://a.com http://a.com" =
        ["http://a.com", "http://a.com"] := by
  refine ⟨by rw [extractUrls, if_neg hne], ?_, ?_, by decide⟩
  · intro m hm
    exact findAllAuxF_shape _ _ m hm
  · intro cs m rest h c hc
    exact matchUrlAt_rest h c hc

/-- Witness for C6 at a concrete body containing a duplicated URL. -/
theorem claim6_fallback_witness :
    extractUrls none "http://a.com http://a.com" =
      findAllUrls "http://a.com http://a.com" :=
  (claim6_fallback "http://a.com http://a.com" (by decide)).1

/-! The record builder of the concurrent processEmlFile. -/

/-- A parsed date value, as far as the pipeline reads it. -/
structure GoTime where
  year : Nat
  month : Nat
  day : Nat
  hour : Nat
  minute : Nat
  second : Nat

def pad2 (n : Nat) : String := if n < 10 then "0" ++ toString n else toString n

def pad4 (n : Nat) : String :=
  if n < 10 then "000" ++ toString n
  else if n < 100 then "00" ++ toString n
  else if n < 1000 then "0" ++ toString n
  else toString n

/-- Models the external Go time formatting with the layout
"2006-01-02 15:04:05" used at main.go:558. -/
def goFormatDateTime (t : GoTime) : String :=
  pad4 t.year ++ "-" ++ pad2 t.month ++ "-" ++ pad2 t.day ++ " " ++
    pad2 t.hour ++ ":" ++ pad2 t.minute ++ ":" ++ pad2 t.second

/-- A mailbox as returned by the external address parsers. -/
structure Address where
  name : String
  address : String

/-- Outcomes of the external go-message header accessors consumed by
processEmlFile (main.go:534-561); none models a non-nil error. -/
structure HeaderView where
  subjectResult : Option String
  fromListResult : Option (List Address)
  toListResult : Option (List Address)
  dateResult : Option GoTime
  originatingIP : String

/-- The first-entry selection of processEmlFile (main.go:541-553): the
name and address of the first list entry when the parse succeeded and
the list is nonempty, empty strings otherwise. -/
def addressFieldsOf : Option (List Address) → String × String
  | some (a :: _) => (a.name, a.address)
  | some [] => ("", "")
  | none => ("", "")

/-- Models strings.Join(parts, newline) as used at main.go:584, 605. -/
def joinNL (parts : List String) : String := String.intercalate "\n" parts

/-- Models path/filepath.Base (external standard library) for the
slash-separated paths the collectors produce. -/
def goBase (path : String) : String :=
  if path = "" then "."
  else
    let cs := path.toList.reverse.dropWhile (fun c => c == '/')
    if cs = [] then "/"
    else (cs.takeWhile (fun c => !(c == '/'))).reverse.asString

/-- Models path/filepath.Dir (external standard library) for the same
clean path shapes: everything before the last separator, a dot when
there is none. -/
def goDir (path : String) : String :=
  let cs := path.toList.reverse.dropWhile (fun c => c == '/')
  let rest := (cs.dropWhile (fun c => !(c == '/'))).dropWhile (fun c => c == '/')
  if rest = [] then (if path.toList.head? = some '/' then "/" else ".")
  else rest.reverse.asString

/-- The record construction of the concurrent processEmlFile
(main.go:521-609), with the outcomes of the external message decoder,
HTML parser and URL parser passed in explicitly. -/
def buildRecord (filePath : String) (h : HeaderView) (htmlContent : String)
    (parseOutcome : Option HNode) : EmailRecord :=
  let subject := h.subjectResult.getD ""
  let fromPair := addressFieldsOf h.fromListResult
  let toPair := addressFieldsOf h.toListResult
  let sentDate :=
    match h.dateResult with
    | some t => goFormatDateTime t
    | none => ""
  let urls := extractUrls parseOutcome htmlContent
  let urlDomains := urlDomainsOf goURLParse urls
  { Folder := goBase (goDir filePath)
    Subject := subject
    FromName := fromPair.1
    FromEmail := fromPair.2
    ToName := toPair.1
    ToEmail := toPair.2
    SentDate := sentDate
    IP := goReplaceChar ',' '\n' h.originatingIP
    URLs := joinNL urls
    URLDomains := joinNL urlDomains
    OriginalFile := goBase filePath }

/-- C5: a message whose Date header is absent or unparseable (the
decoder reported an error, modelled by dateResult none) yields a record
with an empty sentDate — the file is still processed — and the
timestamp token the filename derivation produces for that record is the
literal "unknown". -/
theorem claim5_missing_date (filePath : String) (h : HeaderView)
    (content : String) (parseOutcome : Option HNode)
    (hdate : h.dateResult = none) :
    (buildRecord filePath h content parseOutcome).SentDate = ""
    ∧ formatTime (buildRecord filePath h content parseOutcome).SentDate =
        "unknown" := by
  have hs : (buildRecord filePath h content parseOutcome).SentDate = "" := by
    simp only [buildRecord, hdate]
  exact ⟨hs, by rw [hs]; rfl⟩

/-- Witness for C5 at a concrete header with no date. -/
theorem claim5_missing_date_witness :
    (buildRecord "inbox/a.eml" ⟨some "S", none, none, none, ""⟩ "" none).SentDate = ""
    ∧ formatTime
        (buildRecord "inbox/a.eml" ⟨some "S", none, none, none, ""⟩ "" none).SentDate =
      "unknown" :=
  claim5_missing_date "inbox/a.eml" ⟨some "S", none, none, none, ""⟩ "" none rfl

/-! Claim C7: the X-Originating-IP rendering. -/

/-- The X-Originating-IP rendering of the enmime-based variant
(main.go:149 together with 178): trim the enclosing bracket characters,
then replace each comma by a newline — the computation the claim
describes for every processed message. -/
def ipFieldEnmime (raw : String) : String :=
  goReplaceChar ',' '\n' (goTrim raw ['[', ']'])

theorem split_replace_comma : ∀ l : List Char, '\n' ∉ l →
    goSplitChar '\n' (listReplace ',' '\n' l) = goSplitChar ',' l := by
  intro l
  induction l with
  | nil => intro _; rfl
  | cons c cs ih =>
    intro h
    simp only [List.mem_cons, not_or] at h
    by_cases hc : c = ','
    · subst hc
      have h1 : listReplace ',' '\n' (',' :: cs) = '\n' :: listReplace ',' '\n' cs := by
        simp [listReplace]
      have h2 : goSplitChar '\n' ('\n' :: listReplace ',' '\n' cs) =
          [] :: goSplitChar '\n' (listReplace ',' '\n' cs) := by
        simp [goSplitChar]
      have h3 : goSplitChar ',' (',' :: cs) = [] :: goSplitChar ',' cs := by
        simp [goSplitChar]
      rw [h1, h2, h3, ih h.2]
    · rw [listReplace]
      simp only [if_neg hc]
      rw [goSplitChar, goSplitChar]
      have hcn : ¬c = '\n' := fun he => h.1 he.symm
      simp only [if_neg hcn, if_neg hc]
      rw [ih h.2]

/-- C7 counterexample: in the concurrent pipeline the IP field of the
record keeps the brackets of the raw X-Originating-IP value "[1.2.3.4]" — only
the comma replacement is applied — while the rendering the claim states
(brackets stripped, as the enmime variant computes it) gives
"1.2.3.4". -/
theorem claim7_counterexample :
    (buildRecord "inbox/a.eml" ⟨some "", none, none, none, "[1.2.3.4]"⟩ "" none).IP
      = "[1.2.3.4]"
    ∧ ipFieldEnmime "[1.2.3.4]" = "1.2.3.4"
    ∧ ("[1.2.3.4]" : String) ≠ "1.2.3.4" :=
  ⟨by decide, by decide, by decide⟩

/-- C7 amended: in the concurrent pipeline the originatingIP field is
the raw X-Originating-IP header value with each comma replaced by a
newline and bracket characters retained; splitting the rendered field
on newlines recovers the comma-separated entries (for newline-free
header values); bracket stripping happens only in the enmime-based
variant, whose rendering trims the bracket characters before the comma
replacement. -/
theorem claim7_ip_field (filePath : String) (h : HeaderView)
    (content : String) (parseOutcome : Option HNode) :
    (buildRecord filePath h content parseOutcome).IP =
      goReplaceChar ',' '\n' h.originatingIP
    ∧ (∀ l : List Char, '\n' ∉ l →
        goSplitChar '\n' (listReplace ',' '\n' l) = goSplitChar ',' l)
    ∧ (∀ raw : String,
        ipFieldEnmime raw = goReplaceChar ',' '\n' (goTrim raw ['[', ']'])) :=
  ⟨rfl, fun l hl => split_replace_comma l hl, fun _ => rfl⟩

/-- Witness for C7 at a concrete two-entry header value. -/
theorem claim7_ip_field_witness :
    goSplitChar '\n' (listReplace ',' '\n' "1.2.3.4, 5.6.7.8".toList) =
      goSplitChar ',' "1.2.3.4, 5.6.7.8".toList :=
  (claim7_ip_field "" ⟨none, none, none, none, ""⟩ "" none).2.1 _ (by decide)

/-! Claim C8: address parsing. -/

/-- Models parseAddress of the enmime-based variant (main.go:185-198)
with the two external matchers passed in: stdParse models
mail.ParseAddress, and reSubmatch models FindStringSubmatch of the
permissive pattern applied to the space-trimmed input, returning
(match[1], match[2]) on success. -/
def parseAddress (stdParse : String → Option Address)
    (reSubmatch : String → Option (String × String)) (input : String) :
    String × String :=
  match stdParse input with
  | some addr => (addr.name, addr.address)
  | none =>
    match reSubmatch (goTrimSpaceS input) with
    | some (m1, m2) => (goTrimSpaceS m1, goTrimSpaceS m2)
    | none => ("", goTrim input [' ', '"'])

/-- Trim removes exactly a maximal run of characters satisfying p from
both ends: the input decomposes around the trimmed core. -/
theorem listTrimBy_decomp (p : Char → Bool) (l : List Char) :
    ∃ pre post, l = pre ++ listTrimBy p l ++ post
      ∧ (∀ c ∈ pre, p c = true) ∧ (∀ c ∈ post, p c = true) := by
  have hm : l.dropWhile p =
      listTrimBy p l ++ ((l.dropWhile p).reverse.takeWhile p).reverse := by
    rw [listTrimBy, ← List.reverse_append, List.takeWhile_append_dropWhile,
      List.reverse_reverse]
  refine ⟨l.takeWhile p, ((l.dropWhile p).reverse.takeWhile p).reverse, ?_, ?_, ?_⟩
  · conv_lhs => rw [← List.takeWhile_append_dropWhile (p := p) (l := l), hm]
    rw [List.append_assoc]
  · exact fun c hc => mem_takeWhile_true _ c hc
  · intro c hc
    rw [List.mem_reverse] at hc
    exact mem_takeWhile_true _ c hc

/-- C8 counterexample: in the concurrent pipeline (main.go:541-553) a
From or To header whose address-list parse fails — for example the
non-mailbox text "garbage" — leaves both name and address empty; the
claimed two-stage behavior would instead return the trimmed original
input "garbage" as the address. -/
theorem claim8_counterexample :
    addressFieldsOf none = ("", "")
    ∧ goTrim "garbage" [' ', '"'] = "garbage"
    ∧ (("", "") : String × String) ≠ ("", "garbage") :=
  ⟨rfl, by decide, by decide⟩

/-- C8 amended: the two-stage parser exists in the enmime-based variant
as parseAddress and behaves exactly as the claim describes — the
standards-compliant result when the first stage succeeds, the trimmed
submatch pair when only the permissive pattern matches, and an empty
name with the trimmed original input as the address when neither
succeeds, where that trim removes exactly a maximal run of space and
double-quote characters from both ends; the concurrent pipeline, by
contrast, parses From/To in a single stage and leaves both name and
address empty on failure or an empty mailbox list. -/
theorem claim8_address_parsing (stdParse : String → Option Address)
    (reSubmatch : String → Option (String × String)) (input : String) :
    (∀ addr, stdParse input = some addr →
      parseAddress stdParse reSubmatch input = (addr.name, addr.address))
    ∧ (stdParse input = none → ∀ m1 m2,
        reSubmatch (goTrimSpaceS input) = some (m1, m2) →
        parseAddress stdParse reSubmatch input =
          (goTrimSpaceS m1, goTrimSpaceS m2))
    ∧ (stdParse input = none → reSubmatch (goTrimSpaceS input) = none →
        parseAddress stdParse reSubmatch input = ("", goTrim input [' ', '"']))
    ∧ (∃ pre post,
        input.toList = pre ++ (goTrim input [' ', '"']).toList ++ post
        ∧ (∀ c ∈ pre, c = ' ' ∨ c = '"') ∧ (∀ c ∈ post, c = ' ' ∨ c = '"'))
    ∧ (∀ listResult : Option (List Address),
        listResult = none ∨ listResult = some [] →
        addressFieldsOf listResult = ("", ""))
    ∧ (∀ a rest, addressFieldsOf (some (a :: rest)) = (a.name, a.address)) := by
  refine ⟨?_, ?_, ?_, ?_, ?_, fun a rest => rfl⟩
  · intro addr h
    rw [parseAddress, h]
  · intro h1 m1 m2 h2
    rw [parseAddress, h1, h2]
  · intro h1 h2
    rw [parseAddress, h1, h2]
  · obtain ⟨pre, post, heq, hpre, hpost⟩ :=
      listTrimBy_decomp (fun c => memB c [' ', '"']) input.toList
    refine ⟨pre, post, ?_, ?_, ?_⟩
    · rw [goTrim, toList_asString]
      exact heq
    · intro c hc
      have hm := (memB_iff c [' ', '"']).mp (hpre c hc)
      simpa using hm
    · intro c hc
      have hm := (memB_iff c [' ', '"']).mp (hpost c hc)
      simpa using hm
  · rintro lr (rfl | rfl) <;> rfl

/-- Witness for C8 at concrete failing matchers and a quoted input. -/
theorem claim8_address_parsing_witness :
    parseAddress (fun _ => none) (fun _ => none) " \"a@b.com\" " =
      ("", goTrim " \"a@b.com\" " [' ', '"']) :=
  (claim8_address_parsing (fun _ => none) (fun _ => none) " \"a@b.com\" ").2.2.1
    rfl rfl

/-! Claim C9: side-effect precedence. -/

inductive SideEffect where
  | htmlDump : String → SideEffect
  | copyRename : String → SideEffect
  | inPlaceRename : SideEffect
deriving DecidableEq

/-- The per-file side-effect dispatch of the worker in
processFilesConcurrently (main.go:477-492): an HTML dump when an output
directory is set, then either the copy-and-rename (when its target
directory is set) or else the in-place rename (when only the flag is
set). -/
def sideEffectsOf (htmlOutDir renameByHeaderTo : String)
    (renameByHeader : Bool) : List SideEffect :=
  (if htmlOutDir ≠ "" then [SideEffect.htmlDump htmlOutDir] else []) ++
    (if renameByHeaderTo ≠ "" then [SideEffect.copyRename renameByHeaderTo]
     else if renameByHeader then [SideEffect.inPlaceRename] else [])

/-- C9: when both a copy-and-rename target and the in-place rename flag
are requested, only the copy-and-rename is performed and the in-place
rename is skipped for that file; the in-place rename runs exactly when
no copy-to target is given and its flag is set. -/
theorem claim9_rename_precedence (htmlOutDir renameByHeaderTo : String)
    (renameByHeader : Bool) :
    (renameByHeaderTo ≠ "" →
      SideEffect.copyRename renameByHeaderTo ∈
          sideEffectsOf htmlOutDir renameByHeaderTo renameByHeader
        ∧ SideEffect.inPlaceRename ∉
            sideEffectsOf htmlOutDir renameByHeaderTo renameByHeader)
    ∧ (SideEffect.inPlaceRename ∈
          sideEffectsOf htmlOutDir renameByHeaderTo renameByHeader ↔
        renameByHeaderTo = "" ∧ renameByHeader = true) := by
  by_cases hh : htmlOutDir = "" <;> by_cases hto : renameByHeaderTo = "" <;>
    by_cases hf : renameByHeader <;>
    simp [sideEffectsOf, hh, hto, hf]

/-- Witness for C9: both options requested, only the copy runs. -/
theorem claim9_rename_precedence_witness :
    SideEffect.copyRename "/out" ∈ sideEffectsOf "" "/out" true
    ∧ SideEffect.inPlaceRename ∉ sideEffectsOf "" "/out" true :=
  (claim9_rename_precedence "" "/out" true).1 (by decide)

/-! Claim C3: the worker-pool orchestrator. -/

/-- One worker step per task: the worker of processFilesConcurrently
(main.go:470-496) answers every task it takes with exactly one result —
a record on success, none standing for the error result it sends. -/
def runWorkerPool (process : String → Option EmailRecord)
    (arrival : List String) : List (Option EmailRecord) :=
  arrival.map process

/-- The draining loop of processFilesConcurrently (main.go:509-517):
keep the records of the successful results, skip the failed ones. -/
def drainResults : List (Option EmailRecord) → List EmailRecord
  | [] => []
  | some r :: rest => r :: drainResults rest
  | none :: rest => drainResults rest

/-- The possible executions of processFilesConcurrently (main.go:465-518)
for a positive worker count: every enqueued path is taken by exactly one
worker, each task yields exactly one result on the buffered result
channel, and the order in which results arrive is some permutation of
the task order, because workers complete independently. -/
def BatchRun (workerCount : Nat) (process : String → Option EmailRecord)
    (paths : List String) (results : List (Option EmailRecord)) : Prop :=
  1 ≤ workerCount
    ∧ ∃ arrival : List String, arrival.Perm paths
        ∧ results = runWorkerPool process arrival

theorem drainResults_eq_filterMap : ∀ l, drainResults l = l.filterMap id
  | [] => rfl
  | some r :: rest => by
    simp [drainResults, List.filterMap_cons, drainResults_eq_filterMap rest]
  | none :: rest => by
    simp [drainResults, List.filterMap_cons, drainResults_eq_filterMap rest]

theorem filterMap_length_add (f : String → Option EmailRecord) :
    ∀ l : List String,
      (l.filterMap f).length + (l.filter (fun a => (f a).isNone)).length =
        l.length := by
  intro l
  induction l with
  | nil => rfl
  | cons a as ih =>
    cases hf : f a with
    | some r =>
      simp [List.filterMap_cons, hf, List.filter_cons]
      omega
    | none =>
      simp [List.filterMap_cons, hf, List.filter_cons]
      omega

theorem drain_perm (process : String → Option EmailRecord)
    {arrival paths : List String} (hperm : arrival.Perm paths) :
    (drainResults (runWorkerPool process arrival)).Perm
      (paths.filterMap process) := by
  rw [drainResults_eq_filterMap, runWorkerPool, List.filterMap_map]
  exact hperm.filterMap process

/-- C3: any execution of the worker pool with a positive worker count
produces exactly one result per enqueued path; the drained record list
is a permutation of the records of the paths whose pipeline succeeded,
its length being the number of candidate paths minus the number of
per-file failures; and that length is the same for every execution — in
particular for one worker and for many. -/
theorem claim3_worker_pool (workerCount : Nat)
    (process : String → Option EmailRecord) (paths : List String)
    (results : List (Option EmailRecord))
    (hrun : BatchRun workerCount process paths results) :
    results.length = paths.length
    ∧ (drainResults results).length =
        paths.length - (paths.filter (fun p => (process p).isNone)).length
    ∧ (drainResults results).Perm (paths.filterMap process)
    ∧ (∀ (workerCount₂ : Nat) (results₂ : List (Option EmailRecord)),
        BatchRun workerCount₂ process paths results₂ →
        (drainResults results₂).length = (drainResults results).length) := by
  obtain ⟨hw, arrival, hperm, hres⟩ := hrun
  subst hres
  have hdp := drain_perm process hperm
  have hcount := filterMap_length_add process paths
  refine ⟨?_, ?_, hdp, ?_⟩
  · rw [runWorkerPool, List.length_map]
    exact hperm.length_eq
  · have h1 := hdp.length_eq
    omega
  · intro w₂ results₂ hrun₂
    obtain ⟨hw₂, arrival₂, hperm₂, hres₂⟩ := hrun₂
    subst hres₂
    have hdp₂ := drain_perm process hperm₂
    rw [hdp₂.length_eq, hdp.length_eq]

/-- A concrete per-file pipeline for the C3 witness: one malformed
message among well-formed ones. -/
def demoProcess : String → Option EmailRecord :=
  fun p => if p = "bad.eml" then none
    else some ⟨"", "", "", "", "", "", "", "", "", "", ""⟩

/-- Witness for C3: a three-file batch with one failure drained out of
an out-of-order arrival yields two records. -/
theorem claim3_worker_pool_witness :
    (drainResults (runWorkerPool demoProcess ["b.eml", "a.eml", "bad.eml"])).length =
      (["a.eml", "bad.eml", "b.eml"] : List String).length -
        ((["a.eml", "bad.eml", "b.eml"] : List String).filter
          (fun p => (demoProcess p).isNone)).length :=
  (claim3_worker_pool 2 demoProcess ["a.eml", "bad.eml", "b.eml"]
    (runWorkerPool demoProcess ["b.eml", "a.eml", "bad.eml"])
    ⟨by decide, ["b.eml", "a.eml", "bad.eml"], by decide, rfl⟩).2.1

end Emla
